import Mathlib

/-!
Shallow embedding of `osg-comanage-project-usermap.py` (the mapping-construction
pipeline of the osg-comanage-project-usermap repository) together with proofs of
the specification's claims about it.

Modelling conventions:
* Python strings are modelled as `List Char` (`Str` below); Lean's built-in
  `String` operations are avoided because they do not reduce well, so the
  relevant Python string primitives (`str.strip`, `str.split`,
  `re.split(r'[ ,]+', ...)`, `",".join`, ...) are re-implemented structurally
  on `List Char`, faithful to CPython semantics on the inputs that occur here.
  Whitespace is `Char.isWhitespace` (space, tab, CR, LF), which agrees with
  Python's notion on all characters appearing in this development.
* Python dicts are insertion-ordered maps with unique keys; they are modelled
  as association lists (`List (κ × ν)`), with lookup returning the first
  binding and assignment replacing the value in place (or appending a new
  binding at the end), exactly the observable behaviour of a CPython dict.
* Python floats (used only for `time.time()` timestamps and the cache
  lifetime) are modelled as exact decimals `DecF` (mantissa times a power of
  ten); the decimal literals and arithmetic appearing in the program
  (`60 * 60 * 0.5`, subtraction, order comparison) are exact in IEEE floating
  point at these magnitudes, so this model introduces no rounding discrepancy.
* Fallible Python code (uncaught exceptions) is modelled with `Except PyErr`.
-/

namespace OsgMap

/-- A Python string: a list of characters. -/
abbrev Str := List Char

/-- Uncaught Python exceptions relevant to this program. -/
inductive PyErr where
  | valueError : PyErr
  | indexError : PyErr
deriving DecidableEq, Repr

/-- Python `str.strip()`: drop leading and trailing whitespace. -/
def pyStrip (s : Str) : Str :=
  ((s.dropWhile Char.isWhitespace).reverse.dropWhile Char.isWhitespace).reverse

/-- Python `str.split(maxsplit=2)` applied to an already-stripped string:
split on runs of whitespace into at most three fields, the third field being
the untouched remainder (`line.strip().split(maxsplit=2)` in the source,
line 219 of `osg-comanage-project-usermap.py`). Returns `[]` on a string that
is empty (or all whitespace), as CPython does. -/
def splitMaxsplit2 (s : Str) : List Str :=
  let cs := pyStrip s
  if cs.isEmpty then []
  else
    let t1 := cs.takeWhile (fun c => !c.isWhitespace)
    let r1 := (cs.dropWhile (fun c => !c.isWhitespace)).dropWhile Char.isWhitespace
    if r1.isEmpty then [t1]
    else
      let t2 := r1.takeWhile (fun c => !c.isWhitespace)
      let r2 := (r1.dropWhile (fun c => !c.isWhitespace)).dropWhile Char.isWhitespace
      if r2.isEmpty then [t1, t2] else [t1, t2, r2]

/-- Delimiter class of the regex `[ ,]+` (source line 221). -/
def spaceComma (c : Char) : Bool := c == ' ' || c == ','

mutual

/-- Helper of `re.split(r'[ ,]+', s)`, state: inside a token whose characters
(reversed) are `tok`. -/
def reSplitGo (tok : Str) : Str → List Str
  | [] => [tok.reverse]
  | c :: cs => if spaceComma c then tok.reverse :: reSplitCont cs else reSplitGo (c :: tok) cs

/-- Helper of `re.split(r'[ ,]+', s)`, state: inside a delimiter run. -/
def reSplitCont : Str → List Str
  | [] => [[]]
  | c :: cs => if spaceComma c then reSplitCont cs else reSplitGo [c] cs

end

/-- Python `re.split(r'[ ,]+', s)`: split on maximal runs of spaces and
commas; a leading (trailing) run contributes a leading (trailing) empty
field, and `re.split(r'[ ,]+', "") == [""]`. -/
def reSplitSpaceComma (s : Str) : List Str := reSplitGo [] s

/-- Python `s.split(d)` for a single-character separator `d`: split at every
occurrence of `d`, keeping empty fields (used for `entry.split(":")`,
source line 190). -/
def splitOnChar (d : Char) : Str → List Str :=
  go []
where
  /-- accumulate the current field (reversed) in `acc`. -/
  go (acc : Str) : Str → List Str
    | [] => [acc.reverse]
    | c :: cs => if c == d then acc.reverse :: go [] cs else go (c :: acc) cs

/-- Python `",".join(ss)`. -/
def joinComma : List Str → Str
  | [] => []
  | [s] => s
  | s :: ss => s ++ ',' :: joinComma ss

/-- Decimal digit test, as in Python `int`/`float` literal parsing. -/
def isDigit (c : Char) : Bool := '0' ≤ c && c ≤ '9'

/-- Numeric value of a digit string (most significant first). -/
def digitsVal (ds : Str) : Nat := ds.foldl (fun n c => 10 * n + (c.toNat - 48)) 0

/-- Python `int(s)` on a decimal string: optional surrounding whitespace,
optional sign, then at least one digit and nothing else; any other string
raises `ValueError` (modelled as `none`). -/
def pyInt (s : Str) : Option Int :=
  let t := pyStrip s
  match t with
  | '-' :: r => if r ≠ [] && r.all isDigit then some (-(digitsVal r : Int)) else none
  | '+' :: r => if r ≠ [] && r.all isDigit then some (digitsVal r : Int) else none
  | r => if r ≠ [] && r.all isDigit then some (digitsVal r : Int) else none

/-- An exact decimal number `man / 10 ^ exp`, modelling the Python floats this
program manipulates (timestamps and the cache lifetime; all arithmetic on
them in the source is exact). -/
structure DecF where
  man : Int
  exp : Nat
deriving DecidableEq, Repr

/-- Value-level `a ≤ b` on exact decimals. -/
def DecF.le (a b : DecF) : Bool := decide (a.man * 10 ^ b.exp ≤ b.man * 10 ^ a.exp)

/-- Exact decimal subtraction. -/
def DecF.sub (a b : DecF) : DecF := ⟨a.man * 10 ^ b.exp - b.man * 10 ^ a.exp, a.exp + b.exp⟩

/-- Exact decimal multiplication. -/
def DecF.mul (a b : DecF) : DecF := ⟨a.man * b.man, a.exp + b.exp⟩

/-- Unsigned decimal literal: digits with an optional single point, at least
one digit overall (`"1"`, `"1.5"`, `"1."`, `".5"`). -/
def pyFloatUnsigned (r : Str) : Option DecF :=
  let ip := r.takeWhile isDigit
  match r.dropWhile isDigit with
  | [] => if ip.isEmpty then none else some ⟨(digitsVal ip : Int), 0⟩
  | '.' :: fr =>
      if fr.all isDigit && !(ip.isEmpty && fr.isEmpty) then
        some ⟨(digitsVal ip : Int) * 10 ^ fr.length + (digitsVal fr : Int), fr.length⟩
      else none
  | _ => none

/-- Python `float(s)` restricted to plain decimal literals with optional sign
and surrounding whitespace — the only shape ever written to the cache file
(`print(time.time(), file=w)`, source line 200). Any other string raises
`ValueError` (modelled as `none`). -/
def pyFloat (s : Str) : Option DecF :=
  match pyStrip s with
  | '-' :: r => (pyFloatUnsigned r).map (fun d => ⟨-d.man, d.exp⟩)
  | '+' :: r => pyFloatUnsigned r
  | r => pyFloatUnsigned r

section PythonSemanticsChecks

example : pyStrip "  x y ".toList = "x y".toList := by decide
example : splitMaxsplit2 "* alice grp1, grp2,grp3".toList
    = ["*".toList, "alice".toList, "grp1, grp2,grp3".toList] := by decide
example : splitMaxsplit2 "".toList = [] := by decide
example : splitMaxsplit2 "   ".toList = [] := by decide
example : splitMaxsplit2 "* alice".toList = ["*".toList, "alice".toList] := by decide
example : splitMaxsplit2 "a  b   c  d".toList
    = ["a".toList, "b".toList, "c  d".toList] := by decide
example : reSplitSpaceComma "grp1, grp2,grp3".toList
    = ["grp1".toList, "grp2".toList, "grp3".toList] := by decide
example : reSplitSpaceComma "".toList = ["".toList] := by decide
example : reSplitSpaceComma "a,".toList = ["a".toList, "".toList] := by decide
example : reSplitSpaceComma ",a".toList = ["".toList, "a".toList] := by decide
example : splitOnChar ':' "12:name".toList = ["12".toList, "name".toList] := by decide
example : splitOnChar ':' "a:b:c".toList = ["a".toList, "b".toList, "c".toList] := by decide
example : splitOnChar ':' "".toList = ["".toList] := by decide
example : joinComma ["a".toList, "b".toList] = "a,b".toList := by decide
example : pyInt " 12 ".toList = some 12 := by decide
example : pyInt "-3".toList = some (-3) := by decide
example : pyInt "1.5".toList = none := by decide
example : pyInt "".toList = none := by decide
example : pyFloat "1727740800.25".toList = some ⟨172774080025, 2⟩ := by decide
example : pyFloat "-1".toList = some ⟨-1, 0⟩ := by decide
example : pyFloat "corrupt".toList = none := by decide
example : pyFloat "".toList = none := by decide

end PythonSemanticsChecks

/-! ## Python dicts as insertion-ordered association lists -/

/-- Python dict lookup `d[k]` / `k in d`: the first binding of `k` (a real
dict has unique keys, so the first binding is the only one). -/
def dictLookup [DecidableEq κ] : List (κ × ν) → κ → Option ν
  | [], _ => none
  | (k, v) :: d, k' => if k' = k then some v else dictLookup d k'

/-- Python dict assignment `d[k] = v`: replace the value of an existing
binding in place, else append a new binding at the end (CPython dicts
preserve insertion order). -/
def dictSet [DecidableEq κ] : List (κ × ν) → κ → ν → List (κ × ν)
  | [], k, v => [(k, v)]
  | (k₀, v₀) :: d, k, v => if k = k₀ then (k₀, v) :: d else (k₀, v₀) :: dictSet d k v

/-- The keys of a dict, in insertion order. -/
def dictKeys (d : List (κ × ν)) : List κ := d.map Prod.fst

/-- A user → group-list map (`user_groupmap`, `osguser_groups`, ...). -/
abbrev UserMap := List (Str × List Str)

/-! ## The source functions -/

/-- Order-preserving deduplication, source lines 145–149:
`list(dict.fromkeys(items))` keeps the first occurrence of each element in
position and drops later duplicates. `seen` is the set of keys already in
the dict under construction. -/
def dedupFrom (seen : List Str) : List Str → List Str
  | [] => []
  | x :: xs => if x ∈ seen then dedupFrom seen xs else x :: dedupFrom (x :: seen) xs

/-- Source function `_deduplicate_list(items)`, lines 145–149. -/
def _deduplicate_list (items : List Str) : List Str := dedupFrom [] items

/-- Source function `get_osguser_groups(filter_group_name)`, lines 207–211, with its
two fetches abstracted as inputs: `ldap_users` is the directory map returned
by `utils.get_ldap_active_users_and_groups` and `project_names` the key set
of the topology projects JSON. The function keeps, for each user, the groups
that are topology project names:
`{user: [p for p in groups if p in project_names] for user, groups in ldap_users.items()}`. -/
def get_osguser_groups (ldap_users : UserMap) (project_names : List Str) : UserMap :=
  ldap_users.map (fun p => (p.1, p.2.filter (fun g => decide (g ∈ project_names))))

/-- The loop body of `parse_localmap`, source lines 217–225, folded over the
lines of the file. A line is split into at most three whitespace-delimited
fields; the code indexes `split_line[0]` before checking the length, so an
empty (or all-whitespace) line, whose split is `[]`, raises `IndexError`.
A `*`-marked three-field line contributes its comma/space-separated third
field to the user of its second field, merging with order-preserving
deduplication when the user was already present. -/
def parse_localmap_go (user_groupmap : UserMap) : List Str → Except PyErr UserMap
  | [] => .ok user_groupmap
  | line :: rest =>
    match splitMaxsplit2 line with
    | [] => .error .indexError
    | f0 :: fs =>
      if f0 = "*".toList then
        match fs with
        | [u, f] =>
          let line_groups := reSplitSpaceComma f
          match dictLookup user_groupmap u with
          | some cur =>
              parse_localmap_go (dictSet user_groupmap u (_deduplicate_list (cur ++ line_groups))) rest
          | none => parse_localmap_go (dictSet user_groupmap u line_groups) rest
        | _ => parse_localmap_go user_groupmap rest
      else parse_localmap_go user_groupmap rest

/-- Source function `parse_localmap(inputfile)`, lines 214–226, with the file's
content abstracted as its list of lines (Python iterates `for line in file`;
the trailing newline of each line is whitespace and is removed by the
`line.strip()` the source applies first, so lines are modelled without it). -/
def parse_localmap (lines : List Str) : Except PyErr UserMap :=
  parse_localmap_go [] lines

/-- The inner loop of `merge_maps`, source lines 231–236: fold one incoming
map into the accumulated `merged_map`, entry by entry in insertion order. -/
def mergeOne (merged_map : UserMap) : UserMap → UserMap
  | [] => merged_map
  | (key, v) :: rest =>
    match dictLookup merged_map key with
    | some cur => mergeOne (dictSet merged_map key (_deduplicate_list (cur ++ v))) rest
    | none => mergeOne (dictSet merged_map key v) rest

/-- Source function `merge_maps(maps)`, lines 229–237: fold the maps left to right
into an initially empty `merged_map`. -/
def merge_maps (maps : List UserMap) : UserMap :=
  go [] maps
where
  /-- fold the remaining maps into the accumulator. -/
  go (merged_map : UserMap) : List UserMap → UserMap
    | [] => merged_map
    | projectmap :: rest => go (mergeOne merged_map projectmap) rest

section SourceSemanticsChecks

example : _deduplicate_list ["a".toList, "b".toList, "a".toList, "c".toList, "b".toList]
    = ["a".toList, "b".toList, "c".toList] := by decide
example : get_osguser_groups [("u".toList, ["p1".toList, "x".toList, "p2".toList])]
      ["p1".toList, "p2".toList, "p3".toList]
    = [("u".toList, ["p1".toList, "p2".toList])] := by decide
example : merge_maps [[("u".toList, ["a".toList, "b".toList])], [("u".toList, ["b".toList, "c".toList])]]
    = [("u".toList, ["a".toList, "b".toList, "c".toList])] := by decide
example : parse_localmap ["* alice grp1, grp2,grp3".toList, "bad alice grp1".toList, "* alice".toList]
    = .ok [("alice".toList, ["grp1".toList, "grp2".toList, "grp3".toList])] := rfl
example : parse_localmap ["* alice grp1,grp2".toList, "* alice grp2,grp3".toList]
    = .ok [("alice".toList, ["grp1".toList, "grp2".toList, "grp3".toList])] := rfl
example : parse_localmap ["* alice grp1".toList, "".toList] = .error .indexError := rfl

end SourceSemanticsChecks

/-! ## The serializer, source lines 240–242

`sorted(osguser_groups.items())` sorts the `(user, groups)` tuples in
Python's lexicographic tuple order: by user string first and, for equal
users (impossible in a real dict, whose keys are unique), by the group
lists. The string and list orders are themselves lexicographic; the
generic strict lexicographic order on lists is `lexLt`. -/

/-- Python's `<` on two lists/strings given `<` on their elements:
lexicographic, with a strict prefix smaller than the longer list. -/
def lexLt (lt : α → α → Bool) : List α → List α → Bool
  | _, [] => false
  | [], _ :: _ => true
  | a :: as, b :: bs => lt a b || (!lt b a && lexLt lt as bs)

/-- Python `<` on characters: by Unicode code point. -/
def charLt (a b : Char) : Bool := decide (a < b)

/-- Python `<` on strings. -/
def strLt : Str → Str → Bool := lexLt charLt

/-- Python `<` on lists of strings. -/
def listStrLt : List Str → List Str → Bool := lexLt strLt

/-- Python `<` on `(user, groups)` tuples, as used by
`sorted(osguser_groups.items())`. -/
def pairLt (a b : Str × List Str) : Bool :=
  strLt a.1 b.1 || (!strLt b.1 a.1 && listStrLt a.2 b.2)

/-- The non-strict order corresponding to `pairLt`; Python's stable
ascending `sorted` is a stable sort with respect to it. -/
def pairLe (a b : Str × List Str) : Bool := !pairLt b a

/-- One output line: `"* {} {}".format(osguser, ",".join(group.strip() for
group in groups))`, source line 242. -/
def formatLine (p : Str × List Str) : Str :=
  "* ".toList ++ p.1 ++ ' ' :: joinComma (p.2.map pyStrip)

/-- Source function `print_usermap_to_file(osguser_groups, file)`, lines 240–242,
with the output file abstracted as the list of lines printed to it. -/
def print_usermap_to_file (osguser_groups : UserMap) : List Str :=
  (osguser_groups.mergeSort pairLe).map formatLine

/-! ## The registry cache, source lines 182–204 -/

/-- Source constant `CACHE_LIFETIME_HOURS = 0.5`, line 21. -/
def CACHE_LIFETIME_HOURS : DecF := ⟨5, 1⟩

/-- The freshness window `60 * 60 * CACHE_LIFETIME_HOURS` of source
line 186, in seconds. -/
def CACHE_LIFETIME_SECONDS : DecF := (DecF.mul ⟨60, 0⟩ ⟨60, 0⟩).mul CACHE_LIFETIME_HOURS

/-- The entry-parsing loop of `get_co_api_data`, source lines 188–192: each
cache line is split on `":"`; lines that do not split into exactly two
fields are skipped; for the others `int(...)` of the first field (raising
`ValueError` on a non-integer, uncaught in the source) is bound to the
stripped second field. -/
def parseCacheEntries (entries : List Str) : Except PyErr (List (Int × Str)) :=
  go [] entries
where
  /-- fold the remaining entry lines into the dict `acc`. -/
  go (acc : List (Int × Str)) : List Str → Except PyErr (List (Int × Str))
    | [] => .ok acc
    | entry :: rest =>
      match splitOnChar ':' entry with
      | [g, n] =>
        match pyInt g with
        | some gid => go (dictSet acc gid (pyStrip n)) rest
        | none => .error .valueError
      | _ => go acc rest

/-- Source function `get_co_api_data()`, lines 182–204, with its effects abstracted:
`cache` is the content of `COmanage_Projects_cache.txt` as a list of lines
(`none` when `open` raises `OSError` — missing or unreadable file), `now`
is `time.time()`, and `api_data` is the dict a live
`get_groups_data_from_api()` call would return. The result pairs the
returned dict with the cache write performed: `none` when the cache was
left untouched (fresh hit), `some (t, entries)` when it was overwritten
with timestamp `t` and those entries. The `try` block catches only
`OSError` (raised explicitly on a stale timestamp); `IndexError` from
`lines[0]` on an empty file and `ValueError` from `float`/`int` on corrupt
content propagate to the caller. -/
def get_co_api_data (cache : Option (List Str)) (now : DecF) (api_data : List (Int × Str)) :
    Except PyErr (List (Int × Str) × Option (DecF × List (Int × Str))) :=
  match cache with
  | none => .ok (api_data, some (now, api_data))
  | some lines =>
    match lines with
    | [] => .error .indexError
    | l0 :: entries =>
      match pyFloat l0 with
      | none => .error .valueError
      | some ts =>
        if DecF.le (now.sub CACHE_LIFETIME_SECONDS) ts then
          match parseCacheEntries entries with
          | .ok d => .ok (d, none)
          | .error e => .error e
        else .ok (api_data, some (now, api_data))

/-! ## Option parsing, source lines 111–143

Only the flag-processing loop (lines 124–136) is modelled; `getopt` itself
and the credential lookup after the loop are external glue. The loop state
is the global `options` object plus the loop-local `passfd`, `passfile`
and `ldap_authfile` variables. -/

/-- The mutable option state of `parse_options`: the `Options` class of
source lines 57–67 plus the loop locals of lines 120–122. -/
structure OptState where
  endpoint : Str
  user : Str
  osg_co_id : Int
  outfile : Option Str
  ldap_server : Str
  ldap_user : Str
  filtergrp : Option Str
  localmaps : List Str
  passfd : Option Int
  passfile : Option Str
  ldap_authfile : Option Str
deriving DecidableEq, Repr

/-- Source constant `LDAP_USER`, line 18. -/
def LDAP_USER : Str := "uid=registry_user,ou=system,o=OSG,o=CO,dc=cilogon,dc=org".toList

/-- The option state on entry to the loop: the `Options` class defaults
(source lines 57–67) and `None` loop locals (lines 120–122). -/
def initOptState : OptState where
  endpoint := "https://registry-test.cilogon.org/registry/".toList
  user := "co_7.project_script".toList
  osg_co_id := 8
  outfile := none
  ldap_server := "ldaps://ldap-test.cilogon.org".toList
  ldap_user := LDAP_USER
  filtergrp := none
  localmaps := []
  passfd := none
  passfile := none
  ldap_authfile := none

/-- Errors that abort the option loop: `usage()` exits the process for
`-h`, and `int(arg)` raises `ValueError` for a non-integer `-c`/`-d`
argument. -/
inductive OptErr where
  | usageExit : OptErr
  | valueError : OptErr
deriving DecidableEq, Repr

/-- Python `arg.split(",")`, source line 136 (single-character separator,
empty fields kept; `"".split(",") == [""]`). -/
def splitComma : Str → List Str := splitOnChar ','

/-- One iteration of the flag loop, source lines 124–136. The `if`
statements of the source test `op` against pairwise-distinct flag strings,
so at most one block fires — except for `-l`, which the source tests twice
(line 129 assigns `options.ldap_user = arg`, line 136 assigns
`options.localmaps = arg.split(",")`), so a single `-l` occurrence updates
both fields in the same iteration; the two assignments are rendered here as
one simultaneous record update. -/
def applyOpt (st : OptState) (op arg : Str) : Except OptErr OptState :=
  if op = "-h".toList then .error .usageExit
  else if op = "-u".toList then .ok { st with user := arg }
  else if op = "-c".toList then
    match pyInt arg with
    | some n => .ok { st with osg_co_id := n }
    | none => .error .valueError
  else if op = "-s".toList then .ok { st with ldap_server := arg }
  else if op = "-l".toList then .ok { st with ldap_user := arg, localmaps := splitComma arg }
  else if op = "-a".toList then .ok { st with ldap_authfile := some arg }
  else if op = "-d".toList then
    match pyInt arg with
    | some n => .ok { st with passfd := some n }
    | none => .error .valueError
  else if op = "-f".toList then .ok { st with passfile := some arg }
  else if op = "-e".toList then .ok { st with endpoint := arg }
  else if op = "-o".toList then .ok { st with outfile := some arg }
  else if op = "-g".toList then .ok { st with filtergrp := some arg }
  else .ok st

/-- The flag loop of `parse_options` over the `(op, arg)` pairs returned by
`getopt`, source lines 124–136. -/
def parse_options_loop (st : OptState) : List (Str × Str) → Except OptErr OptState
  | [] => .ok st
  | (op, arg) :: rest =>
    match applyOpt st op arg with
    | .ok st₁ => parse_options_loop st₁ rest
    | .error e => .error e

/-- Source function `parse_options(args)` restricted to its flag loop, starting from the
`Options` defaults. -/
def parse_options (ops : List (Str × Str)) : Except OptErr OptState :=
  parse_options_loop initOptState ops

/-! ## The sanity gate (not present in `src/`) -/

/-- Modelled from the spec: the minimum-user-count threshold of the sanity
gate, "configured minimum (default 100)". The gate itself is absent from
the variant in `src/` (its `main`, lines 253–263, emits unconditionally);
only the repository's other variant enforces it. -/
def MIN_USERS_DEFAULT : Nat := 100

/-- Modelled from the spec: the sanity gate of the repository's other
variant — "if size < minimum, abort the run without writing output,
signaling a fatal error"; otherwise the merged map is serialized. `none`
models the aborted run with no output written. -/
def apply_sanity_gate (merged : UserMap) (min_users : Nat) : Option (List Str) :=
  if merged.length < min_users then none else some (print_usermap_to_file merged)

section GateSemanticsChecks

example : formatLine ("alice".toList, ["g1 ".toList, "g2".toList]) = "* alice g1,g2".toList := by
  decide
example : get_co_api_data (some ["corrupt".toList]) ⟨0, 0⟩ [] = .error .valueError := rfl
example : get_co_api_data (some []) ⟨0, 0⟩ [] = .error .indexError := rfl
example : get_co_api_data none ⟨0, 0⟩ [(1, "p".toList)]
    = .ok ([(1, "p".toList)], some (⟨0, 0⟩, [(1, "p".toList)])) := rfl
example : get_co_api_data (some ["100.5".toList, "7:proj ".toList, "bad line".toList]) ⟨200, 0⟩ []
    = .ok ([(7, "proj".toList)], none) := rfl
example : get_co_api_data (some ["100.5".toList]) ⟨20000, 0⟩ [(1, "p".toList)]
    = .ok ([(1, "p".toList)], some (⟨20000, 0⟩, [(1, "p".toList)])) := rfl
example : parse_options [("-l".toList, "a,b".toList)]
    = .ok { initOptState with ldap_user := "a,b".toList,
                              localmaps := ["a".toList, "b".toList] } := rfl

end GateSemanticsChecks

/-! ## Lemmas about `_deduplicate_list` -/

theorem mem_dedupFrom {x : Str} {seen l : List Str} :
    x ∈ dedupFrom seen l ↔ x ∈ l ∧ x ∉ seen := by
  induction l generalizing seen with
  | nil => simp [dedupFrom]
  | cons y l ih =>
    by_cases hy : y ∈ seen
    · rw [dedupFrom, if_pos hy, ih]
      constructor
      · rintro ⟨h1, h2⟩; exact ⟨List.mem_cons_of_mem _ h1, h2⟩
      · rintro ⟨h1, h2⟩
        rcases List.mem_cons.mp h1 with rfl | h1
        · exact absurd hy h2
        · exact ⟨h1, h2⟩
    · rw [dedupFrom, if_neg hy]
      constructor
      · intro h
        rcases List.mem_cons.mp h with rfl | h
        · exact ⟨List.mem_cons_self _ _, hy⟩
        · rcases ih.mp h with ⟨h1, h2⟩
          exact ⟨List.mem_cons_of_mem _ h1, fun hs => h2 (List.mem_cons_of_mem _ hs)⟩
      · rintro ⟨h1, h2⟩
        rcases List.mem_cons.mp h1 with rfl | h1
        · exact List.mem_cons_self _ _
        · by_cases hxy : x = y
          · subst hxy; exact List.mem_cons_self _ _
          · exact List.mem_cons_of_mem _
              (ih.mpr ⟨h1, fun hs => by
                rcases List.mem_cons.mp hs with h | h
                · exact hxy h
                · exact h2 h⟩)

theorem nodup_dedupFrom {seen l : List Str} : (dedupFrom seen l).Nodup := by
  induction l generalizing seen with
  | nil => simp [dedupFrom]
  | cons y l ih =>
    by_cases hy : y ∈ seen
    · rw [dedupFrom, if_pos hy]; exact ih
    · rw [dedupFrom, if_neg hy]
      refine List.Nodup.cons (fun h => ?_) ih
      exact (mem_dedupFrom.mp h).2 (List.mem_cons_self _ _)

theorem dedupFrom_congr {s₁ s₂ l : List Str} (h : ∀ x, x ∈ s₁ ↔ x ∈ s₂) :
    dedupFrom s₁ l = dedupFrom s₂ l := by
  induction l generalizing s₁ s₂ with
  | nil => rfl
  | cons y l ih =>
    by_cases hy : y ∈ s₁
    · rw [dedupFrom, if_pos hy, dedupFrom, if_pos ((h y).mp hy)]
      exact ih h
    · have hy₂ : y ∉ s₂ := fun hc => hy ((h y).mpr hc)
      rw [dedupFrom, if_neg hy, dedupFrom, if_neg hy₂]
      refine congrArg _ (ih fun x => ?_)
      simp only [List.mem_cons]
      exact or_congr Iff.rfl (h x)

theorem dedupFrom_append {seen l₁ l₂ : List Str} :
    dedupFrom seen (l₁ ++ l₂) = dedupFrom seen l₁ ++ dedupFrom (l₁ ++ seen) l₂ := by
  induction l₁ generalizing seen with
  | nil => simp [dedupFrom]
  | cons x l₁ ih =>
    by_cases hx : x ∈ seen
    · rw [List.cons_append, dedupFrom, if_pos hx, dedupFrom, if_pos hx, ih]
      refine congrArg _ (dedupFrom_congr fun z => ?_)
      simp only [List.cons_append, List.mem_cons, List.mem_append]
      constructor
      · intro h; exact Or.inr h
      · rintro (rfl | h)
        · exact Or.inr hx
        · exact h
    · rw [List.cons_append, dedupFrom, if_neg hx, dedupFrom, if_neg hx, ih, List.cons_append]
      refine congrArg _ (congrArg _ (dedupFrom_congr fun z => ?_))
      simp only [List.mem_append, List.mem_cons]
      tauto

theorem dedupFrom_eq_nil {seen l : List Str} (h : ∀ x ∈ l, x ∈ seen) :
    dedupFrom seen l = [] := by
  induction l with
  | nil => rfl
  | cons y l ih =>
    rw [dedupFrom, if_pos (h y (List.mem_cons_self _ _))]
    exact ih fun x hx => h x (List.mem_cons_of_mem _ hx)

theorem dedupFrom_eq_self {seen l : List Str} (hn : l.Nodup) (h : ∀ x ∈ l, x ∉ seen) :
    dedupFrom seen l = l := by
  induction l generalizing seen with
  | nil => rfl
  | cons y l ih =>
    rw [dedupFrom, if_neg (h y (List.mem_cons_self _ _))]
    refine congrArg _ (ih (List.Nodup.of_cons hn) fun x hx hs => ?_)
    rcases List.mem_cons.mp hs with rfl | hs
    · exact (List.nodup_cons.mp hn).1 hx
    · exact h x (List.mem_cons_of_mem _ hx) hs

theorem dedup_eq_self {l : List Str} (hn : l.Nodup) : _deduplicate_list l = l :=
  dedupFrom_eq_self hn (by simp)

theorem mem_dedup {x : Str} {l : List Str} : x ∈ _deduplicate_list l ↔ x ∈ l := by
  rw [_deduplicate_list, mem_dedupFrom]; simp

theorem dedup_append_self {l : List Str} :
    _deduplicate_list (l ++ l) = _deduplicate_list l := by
  rw [_deduplicate_list, dedupFrom_append, @dedupFrom_eq_nil (l ++ []) l (by simp),
    List.append_nil]
  rfl

theorem dedup_dedup_append {a b : List Str} :
    _deduplicate_list (_deduplicate_list a ++ b) = _deduplicate_list (a ++ b) := by
  have h1 := @dedupFrom_append [] (_deduplicate_list a) b
  have h2 : dedupFrom [] (_deduplicate_list a) = _deduplicate_list a :=
    dedupFrom_eq_self nodup_dedupFrom (by simp)
  have h3 := @dedupFrom_append ([] : List Str) a b
  have h4 : dedupFrom (_deduplicate_list a ++ []) b = dedupFrom (a ++ []) b :=
    dedupFrom_congr fun z => by simp [mem_dedup]
  show dedupFrom [] (_deduplicate_list a ++ b) = dedupFrom [] (a ++ b)
  rw [h1, h2, h4, h3]
  rfl

/-! ## Lemmas about the dict model -/

variable {κ ν : Type} [DecidableEq κ]

theorem dictLookup_dictSet {d : List (κ × ν)} {k k' : κ} {v : ν} :
    dictLookup (dictSet d k v) k' = if k' = k then some v else dictLookup d k' := by
  induction d with
  | nil =>
    by_cases h : k' = k
    · simp [dictSet, dictLookup, h]
    · simp [dictSet, dictLookup, h]
  | cons p d ih =>
    obtain ⟨k₀, v₀⟩ := p
    by_cases h0 : k = k₀
    · subst h0
      by_cases h' : k' = k
      · simp [dictSet, dictLookup, h']
      · simp [dictSet, dictLookup, h']
    · by_cases h' : k' = k₀
      · subst h'
        have hne : k' ≠ k := fun hc => h0 hc.symm
        simp [dictSet, dictLookup, h0, hne]
      · simp [dictSet, dictLookup, h0, h', ih]

theorem dictLookup_eq_none {d : List (κ × ν)} {k : κ} :
    dictLookup d k = none ↔ k ∉ dictKeys d := by
  induction d with
  | nil => simp [dictLookup, dictKeys]
  | cons p d ih =>
    obtain ⟨k₀, v₀⟩ := p
    by_cases h : k = k₀
    · simp [dictLookup, dictKeys, h]
    · simp [dictLookup, dictKeys, h, ih]

theorem dictSet_of_not_mem {d : List (κ × ν)} {k : κ} {v : ν} (h : k ∉ dictKeys d) :
    dictSet d k v = d ++ [(k, v)] := by
  induction d with
  | nil => rfl
  | cons p d ih =>
    obtain ⟨k₀, v₀⟩ := p
    simp only [dictKeys, List.map_cons, List.mem_cons] at h
    push_neg at h
    rw [dictSet, if_neg h.1, List.cons_append]
    exact congrArg _ (ih h.2)

theorem dictSet_self {d : List (κ × ν)} {k : κ} {v : ν} (h : dictLookup d k = some v) :
    dictSet d k v = d := by
  induction d with
  | nil => simp [dictLookup] at h
  | cons p d ih =>
    obtain ⟨k₀, v₀⟩ := p
    by_cases hk : k = k₀
    · subst hk
      rw [dictLookup, if_pos rfl] at h
      rw [dictSet, if_pos rfl, Option.some_inj.mp h]
    · rw [dictLookup, if_neg hk] at h
      rw [dictSet, if_neg hk]
      exact congrArg _ (ih h)

theorem dictLookup_of_mem {d : List (κ × ν)} {k : κ} {v : ν}
    (hn : (dictKeys d).Nodup) (h : (k, v) ∈ d) : dictLookup d k = some v := by
  induction d with
  | nil => simp at h
  | cons p d ih =>
    obtain ⟨k₀, v₀⟩ := p
    simp only [dictKeys, List.map_cons, List.nodup_cons] at hn
    rcases List.mem_cons.mp h with he | hmem
    · injection he with h1 h2
      subst h1
      subst h2
      rw [dictLookup, if_pos rfl]
    · have hk : k ≠ k₀ := by
        rintro rfl
        exact hn.1 (List.mem_map.mpr ⟨(k, v), hmem, rfl⟩)
      rw [dictLookup, if_neg hk]
      exact ih hn.2 hmem

theorem dictLookup_some_mem {d : List (κ × ν)} {k : κ} {v : ν}
    (h : dictLookup d k = some v) : (k, v) ∈ d := by
  induction d with
  | nil => simp [dictLookup] at h
  | cons p d ih =>
    obtain ⟨k₀, v₀⟩ := p
    by_cases hk : k = k₀
    · subst hk
      rw [dictLookup, if_pos rfl] at h
      cases Option.some_inj.mp h
      exact List.mem_cons_self _ _
    · rw [dictLookup, if_neg hk] at h
      exact List.mem_cons_of_mem _ (ih h)

theorem dictKeys_append {d e : List (κ × ν)} :
    dictKeys (d ++ e) = dictKeys d ++ dictKeys e := List.map_append _ _ _

/-! ## Lemmas about `merge_maps` -/

/-- What one `merge_maps` iteration contributes to the binding of a given
key: nothing if the incoming map has no binding, the incoming list if the
accumulator has none, and the deduplicated concatenation if both have one. -/
def combineVal : Option (List Str) → Option (List Str) → Option (List Str)
  | none, none => none
  | some v, none => some v
  | none, some w => some w
  | some v, some w => some (_deduplicate_list (v ++ w))

theorem combineVal_none_right {a : Option (List Str)} : combineVal a none = a := by
  cases a <;> rfl

theorem mergeOne_lookup {pm : UserMap} {u : Str} (hn : (dictKeys pm).Nodup) :
    ∀ {d : UserMap},
      dictLookup (mergeOne d pm) u = combineVal (dictLookup d u) (dictLookup pm u) := by
  induction pm with
  | nil => intro d; rw [mergeOne, dictLookup, combineVal_none_right]
  | cons p rest ih =>
    intro d
    obtain ⟨k, v⟩ := p
    simp only [dictKeys, List.map_cons, List.nodup_cons] at hn
    by_cases hu : u = k
    · subst hu
      have hrest : dictLookup rest u = none :=
        dictLookup_eq_none.mpr (fun hc => hn.1 (by simpa [dictKeys] using hc))
      cases hc : dictLookup d u with
      | some cur =>
        rw [mergeOne, hc, ih hn.2, hrest, combineVal_none_right, dictLookup_dictSet,
          if_pos rfl, dictLookup, if_pos rfl]
        rfl
      | none =>
        rw [mergeOne, hc, ih hn.2, hrest, combineVal_none_right, dictLookup_dictSet,
          if_pos rfl, dictLookup, if_pos rfl]
        rfl
    · rw [dictLookup, if_neg hu]
      cases hc : dictLookup d k with
      | some cur =>
        rw [mergeOne, hc, ih hn.2, dictLookup_dictSet, if_neg hu]
      | none =>
        rw [mergeOne, hc, ih hn.2, dictLookup_dictSet, if_neg hu]

theorem merge_maps_go_lookup {u : Str} :
    ∀ {maps : List UserMap} {d : UserMap}, (∀ pm ∈ maps, (dictKeys pm).Nodup) →
      dictLookup (merge_maps.go d maps) u
        = maps.foldl (fun a pm => combineVal a (dictLookup pm u)) (dictLookup d u) := by
  intro maps
  induction maps with
  | nil => intro d _; rfl
  | cons pm rest ih =>
    intro d h
    rw [merge_maps.go, List.foldl_cons, ← mergeOne_lookup (h pm (List.mem_cons_self _ _))]
    exact ih fun q hq => h q (List.mem_cons_of_mem _ hq)

/-- Iterated dedup-concatenation, the per-key effect of the `merge_maps`
fold once a first binding exists. -/
def accDedup (v : List Str) (ls : List (List Str)) : List Str :=
  ls.foldl (fun x w => _deduplicate_list (x ++ w)) v

theorem foldl_combineVal_some {os : List (Option (List Str))} :
    ∀ {v : List Str},
      os.foldl combineVal (some v) = some (accDedup v os.reduceOption) := by
  induction os with
  | nil => intro v; rfl
  | cons o os ih =>
    intro v
    cases o with
    | none => rw [List.foldl_cons]; exact ih
    | some w => rw [List.foldl_cons]; exact ih

theorem foldl_combineVal_none {os : List (Option (List Str))} :
    os.foldl combineVal none
      = match os.reduceOption with
        | [] => none
        | w :: ls => some (accDedup w ls) := by
  induction os with
  | nil => rfl
  | cons o os ih =>
    cases o with
    | none => rw [List.foldl_cons]; exact ih
    | some w =>
      rw [List.foldl_cons]
      show os.foldl combineVal (some w) = _
      rw [foldl_combineVal_some]
      simp [List.reduceOption]

theorem accDedup_eq_dedup_join {ls : List (List Str)} :
    ∀ {v : List Str}, v.Nodup → accDedup v ls = _deduplicate_list (v ++ ls.flatten) := by
  induction ls with
  | nil =>
    intro v hv
    rw [accDedup, List.foldl_nil, List.flatten_nil, List.append_nil, dedup_eq_self hv]
  | cons w ls ih =>
    intro v hv
    rw [accDedup, List.foldl_cons]
    have hnd : (_deduplicate_list (v ++ w)).Nodup := by
      rw [_deduplicate_list]; exact nodup_dedupFrom
    show accDedup (_deduplicate_list (v ++ w)) ls = _
    rw [ih hnd, dedup_dedup_append, List.flatten_cons, ← List.append_assoc]

/-! ## The lexicographic orders used by `sorted` are strict total orders -/

section LexOrder

variable {α : Type} {lt : α → α → Bool}

theorem lt_irrefl_of_asymm (hasymm : ∀ a b, lt a b = true → lt b a = false) (a : α) :
    lt a a = false := by
  cases h : lt a a with
  | true => have h₂ := hasymm a a h; rw [h] at h₂; exact h₂
  | false => rfl

theorem lexLt_asymm (hasymm : ∀ a b, lt a b = true → lt b a = false) :
    ∀ as bs, lexLt lt as bs = true → lexLt lt bs as = false := by
  intro as
  induction as with
  | nil =>
    intro bs h
    cases bs with
    | nil => rfl
    | cons b bs => rfl
  | cons a as ih =>
    intro bs h
    cases bs with
    | nil => exact Bool.noConfusion h
    | cons b bs =>
      rw [lexLt] at h ⊢
      rcases Bool.or_eq_true_iff.mp h with hab | hrest
      · rw [hasymm a b hab, hab]
        simp
      · rcases Bool.and_eq_true_iff.mp hrest with ⟨hnba, hr⟩
        have hba : lt b a = false := by
          cases hc : lt b a
          · rfl
          · rw [hc] at hnba; exact absurd hnba (by simp)
        rw [hba, ih bs hr]
        simp

theorem lexLt_conn (hconn : ∀ a b, lt a b = false → lt b a = false → a = b) :
    ∀ as bs, lexLt lt as bs = false → lexLt lt bs as = false → as = bs := by
  intro as
  induction as with
  | nil =>
    intro bs h1 _
    cases bs with
    | nil => rfl
    | cons b bs => exact Bool.noConfusion h1
  | cons a as ih =>
    intro bs h1 h2
    cases bs with
    | nil => exact Bool.noConfusion h2
    | cons b bs =>
      rw [lexLt, Bool.or_eq_false_iff] at h1 h2
      obtain ⟨hab, h1r⟩ := h1
      obtain ⟨hba, h2r⟩ := h2
      have heq : a = b := hconn a b hab hba
      subst heq
      rw [Bool.and_eq_false_iff] at h1r h2r
      have h1s : lexLt lt as bs = false := by
        rcases h1r with h | h
        · rw [hab] at h; exact absurd h (by simp)
        · exact h
      have h2s : lexLt lt bs as = false := by
        rcases h2r with h | h
        · rw [hab] at h; exact absurd h (by simp)
        · exact h
      rw [ih bs h1s h2s]

theorem lexLt_trans (hasymm : ∀ a b, lt a b = true → lt b a = false)
    (htrans : ∀ a b c, lt a b = true → lt b c = true → lt a c = true)
    (hconn : ∀ a b, lt a b = false → lt b a = false → a = b) :
    ∀ as bs cs, lexLt lt as bs = true → lexLt lt bs cs = true → lexLt lt as cs = true := by
  intro as
  induction as with
  | nil =>
    intro bs cs h1 h2
    cases bs with
    | nil => exact Bool.noConfusion h1
    | cons b bs =>
      cases cs with
      | nil => exact Bool.noConfusion h2
      | cons c cs => rfl
  | cons a as ih =>
    intro bs cs h1 h2
    cases bs with
    | nil => exact Bool.noConfusion h1
    | cons b bs =>
      cases cs with
      | nil => exact Bool.noConfusion h2
      | cons c cs =>
        rw [lexLt] at h1 h2 ⊢
        cases hab : lt a b with
        | true =>
          cases hbc : lt b c with
          | true => rw [htrans a b c hab hbc]; simp
          | false =>
            rw [hbc] at h2
            simp only [Bool.false_or, Bool.and_eq_true_iff] at h2
            have hcb : lt c b = false := by
              cases hc : lt c b
              · rfl
              · rw [hc] at h2; simp at h2
            have heq : b = c := hconn b c hbc hcb
            subst heq
            rw [hab]
            simp
        | false =>
          rw [hab] at h1
          simp only [Bool.false_or, Bool.and_eq_true_iff] at h1
          have hba : lt b a = false := by
            cases hc : lt b a
            · rfl
            · rw [hc] at h1; simp at h1
          have heq : a = b := hconn a b hab hba
          subst heq
          cases hbc : lt a c with
          | true => simp
          | false =>
            rw [hbc] at h2
            simp only [Bool.false_or, Bool.and_eq_true_iff] at h2
            have hca : lt c a = false := by
              cases hc : lt c a
              · rfl
              · rw [hc] at h2; simp at h2
            have heq₂ : a = c := hconn a c hbc hca
            subst heq₂
            rw [lt_irrefl_of_asymm hasymm a]
            simp only [Bool.false_or, Bool.not_false, Bool.true_and]
            exact ih bs cs h1.2 h2.2

end LexOrder

theorem charLt_asymm : ∀ a b : Char, charLt a b = true → charLt b a = false := by
  intro a b h
  rw [charLt, decide_eq_true_eq] at h
  rw [charLt, decide_eq_false_iff_not]
  exact lt_asymm h

theorem charLt_trans : ∀ a b c : Char, charLt a b = true → charLt b c = true → charLt a c = true := by
  intro a b c h1 h2
  rw [charLt, decide_eq_true_eq] at h1 h2
  rw [charLt, decide_eq_true_eq]
  exact lt_trans h1 h2

theorem charLt_conn : ∀ a b : Char, charLt a b = false → charLt b a = false → a = b := by
  intro a b h1 h2
  rw [charLt, decide_eq_false_iff_not, not_lt] at h1 h2
  exact le_antisymm h2 h1

theorem strLt_asymm : ∀ a b : Str, strLt a b = true → strLt b a = false :=
  lexLt_asymm charLt_asymm

theorem strLt_trans : ∀ a b c : Str, strLt a b = true → strLt b c = true → strLt a c = true :=
  lexLt_trans charLt_asymm charLt_trans charLt_conn

theorem strLt_conn : ∀ a b : Str, strLt a b = false → strLt b a = false → a = b :=
  lexLt_conn charLt_conn

theorem listStrLt_asymm : ∀ a b : List Str, listStrLt a b = true → listStrLt b a = false :=
  lexLt_asymm strLt_asymm

theorem listStrLt_trans :
    ∀ a b c : List Str, listStrLt a b = true → listStrLt b c = true → listStrLt a c = true :=
  lexLt_trans strLt_asymm strLt_trans strLt_conn

theorem listStrLt_conn : ∀ a b : List Str, listStrLt a b = false → listStrLt b a = false → a = b :=
  lexLt_conn strLt_conn

theorem pairLt_asymm {a b : Str × List Str} (h : pairLt a b = true) : pairLt b a = false := by
  rw [pairLt] at h ⊢
  rcases Bool.or_eq_true_iff.mp h with h1 | hrest
  · rw [strLt_asymm _ _ h1, h1]
    simp
  · rcases Bool.and_eq_true_iff.mp hrest with ⟨hn, hl⟩
    have hba : strLt b.1 a.1 = false := by
      cases hc : strLt b.1 a.1
      · rfl
      · rw [hc] at hn; exact absurd hn (by simp)
    rw [hba, listStrLt_asymm _ _ hl]
    simp

theorem pairLt_conn {a b : Str × List Str} (h1 : pairLt a b = false) (h2 : pairLt b a = false) :
    a = b := by
  rw [pairLt, Bool.or_eq_false_iff] at h1 h2
  obtain ⟨hab, h1r⟩ := h1
  obtain ⟨hba, h2r⟩ := h2
  have hk : a.1 = b.1 := strLt_conn _ _ hab hba
  rw [Bool.and_eq_false_iff] at h1r h2r
  have h1v : listStrLt a.2 b.2 = false := by
    rcases h1r with h | h
    · rw [hba] at h; exact absurd h (by simp)
    · exact h
  have h2v : listStrLt b.2 a.2 = false := by
    rcases h2r with h | h
    · rw [hab] at h; exact absurd h (by simp)
    · exact h
  have hv : a.2 = b.2 := listStrLt_conn _ _ h1v h2v
  exact Prod.ext hk hv

theorem pairLt_trans {a b c : Str × List Str} (h1 : pairLt a b = true) (h2 : pairLt b c = true) :
    pairLt a c = true := by
  rw [pairLt] at h1 h2 ⊢
  cases hab : strLt a.1 b.1 with
  | true =>
    cases hbc : strLt b.1 c.1 with
    | true => rw [strLt_trans _ _ _ hab hbc]; simp
    | false =>
      rw [hbc] at h2
      simp only [Bool.false_or, Bool.and_eq_true_iff] at h2
      have hcb : strLt c.1 b.1 = false := by
        cases hc : strLt c.1 b.1
        · rfl
        · rw [hc] at h2; simp at h2
      have heq : b.1 = c.1 := strLt_conn _ _ hbc hcb
      rw [← heq, hab]
      simp
  | false =>
    rw [hab] at h1
    simp only [Bool.false_or, Bool.and_eq_true_iff] at h1
    have hba : strLt b.1 a.1 = false := by
      cases hc : strLt b.1 a.1
      · rfl
      · rw [hc] at h1; simp at h1
    have heq : a.1 = b.1 := strLt_conn _ _ hab hba
    cases hbc : strLt b.1 c.1 with
    | true => rw [heq, hbc]; simp
    | false =>
      rw [hbc] at h2
      simp only [Bool.false_or, Bool.and_eq_true_iff] at h2
      have hcb : strLt c.1 b.1 = false := by
        cases hc : strLt c.1 b.1
        · rfl
        · rw [hc] at h2; simp at h2
      have heq₂ : b.1 = c.1 := strLt_conn _ _ hbc hcb
      rw [heq, heq₂, lt_irrefl_of_asymm strLt_asymm c.1]
      simp only [Bool.false_or, Bool.not_false, Bool.true_and]
      have hca : strLt c.1 a.1 = false := by rw [heq, heq₂]; exact lt_irrefl_of_asymm strLt_asymm c.1
      exact listStrLt_trans _ _ _ h1.2 h2.2

theorem pairLe_trans :
    ∀ a b c : Str × List Str, pairLe a b = true → pairLe b c = true → pairLe a c = true := by
  intro a b c h1 h2
  rw [pairLe, Bool.not_eq_true'] at h1 h2
  rw [pairLe, Bool.not_eq_true']
  cases hca : pairLt c a with
  | false => rfl
  | true =>
    cases hab : pairLt a b with
    | true =>
      have := pairLt_trans hca hab
      rw [this] at h2
      exact h2
    | false =>
      have heq : a = b := pairLt_conn hab h1
      subst heq
      rw [hca] at h2
      exact h2

theorem pairLe_total : ∀ a b : Str × List Str, (pairLe a b || pairLe b a) = true := by
  intro a b
  rw [pairLe, pairLe]
  cases hab : pairLt a b with
  | false => simp
  | true =>
    rw [pairLt_asymm hab]
    simp

theorem pairLe_antisymm :
    ∀ a b : Str × List Str, pairLe a b = true → pairLe b a = true → a = b := by
  intro a b h1 h2
  rw [pairLe, Bool.not_eq_true'] at h1 h2
  exact pairLt_conn h2 h1

/-- Sorting with `sorted`'s order is insensitive to the input's arrangement:
two rearrangements of the same bindings sort to the same list. -/
theorem mergeSort_pairLe_eq {m₁ m₂ : UserMap} (hp : m₁.Perm m₂) :
    m₁.mergeSort pairLe = m₂.mergeSort pairLe := by
  have anti : IsAntisymm (Str × List Str) (fun a b => pairLe a b = true) :=
    ⟨fun a b h1 h2 => pairLe_antisymm a b h1 h2⟩
  have hperm : (m₁.mergeSort pairLe).Perm (m₂.mergeSort pairLe) :=
    ((List.mergeSort_perm m₁ pairLe).trans hp).trans (List.mergeSort_perm m₂ pairLe).symm
  have hs₁ : List.Sorted (fun a b => pairLe a b = true) (m₁.mergeSort pairLe) :=
    List.sorted_mergeSort (fun a b c => pairLe_trans a b c) pairLe_total m₁
  have hs₂ : List.Sorted (fun a b => pairLe a b = true) (m₂.mergeSort pairLe) :=
    List.sorted_mergeSort (fun a b c => pairLe_trans a b c) pairLe_total m₂
  exact @List.eq_of_perm_of_sorted _ _ anti _ _ hperm hs₁ hs₂

/-! ## Lemmas about the option loop -/

theorem parse_options_loop_append {xs ys : List (Str × Str)} :
    ∀ {st : OptState},
      parse_options_loop st (xs ++ ys)
        = match parse_options_loop st xs with
          | .ok st₁ => parse_options_loop st₁ ys
          | .error e => .error e := by
  induction xs with
  | nil => intro st; rfl
  | cons p xs ih =>
    intro st
    obtain ⟨op, arg⟩ := p
    rw [List.cons_append, parse_options_loop, parse_options_loop]
    cases applyOpt st op arg with
    | ok st₁ => exact ih
    | error e => rfl

theorem applyOpt_l {st : OptState} {a : Str} :
    applyOpt st "-l".toList a = .ok { st with ldap_user := a, localmaps := splitComma a } := rfl

theorem applyOpt_preserves {st st' : OptState} {op arg : Str} (hop : op ≠ "-l".toList)
    (h : applyOpt st op arg = .ok st') :
    st'.ldap_user = st.ldap_user ∧ st'.localmaps = st.localmaps := by
  rw [applyOpt] at h
  by_cases h1 : op = "-h".toList
  · rw [if_pos h1] at h; exact Except.noConfusion h
  rw [if_neg h1] at h
  by_cases h2 : op = "-u".toList
  · rw [if_pos h2] at h; injection h with he; subst he; exact ⟨rfl, rfl⟩
  rw [if_neg h2] at h
  by_cases h3 : op = "-c".toList
  · rw [if_pos h3] at h
    cases hp : pyInt arg with
    | some n => rw [hp] at h; injection h with he; subst he; exact ⟨rfl, rfl⟩
    | none => rw [hp] at h; exact Except.noConfusion h
  rw [if_neg h3] at h
  by_cases h4 : op = "-s".toList
  · rw [if_pos h4] at h; injection h with he; subst he; exact ⟨rfl, rfl⟩
  rw [if_neg h4] at h
  rw [if_neg hop] at h
  by_cases h6 : op = "-a".toList
  · rw [if_pos h6] at h; injection h with he; subst he; exact ⟨rfl, rfl⟩
  rw [if_neg h6] at h
  by_cases h7 : op = "-d".toList
  · rw [if_pos h7] at h
    cases hp : pyInt arg with
    | some n => rw [hp] at h; injection h with he; subst he; exact ⟨rfl, rfl⟩
    | none => rw [hp] at h; exact Except.noConfusion h
  rw [if_neg h7] at h
  by_cases h8 : op = "-f".toList
  · rw [if_pos h8] at h; injection h with he; subst he; exact ⟨rfl, rfl⟩
  rw [if_neg h8] at h
  by_cases h9 : op = "-e".toList
  · rw [if_pos h9] at h; injection h with he; subst he; exact ⟨rfl, rfl⟩
  rw [if_neg h9] at h
  by_cases h10 : op = "-o".toList
  · rw [if_pos h10] at h; injection h with he; subst he; exact ⟨rfl, rfl⟩
  rw [if_neg h10] at h
  by_cases h11 : op = "-g".toList
  · rw [if_pos h11] at h; injection h with he; subst he; exact ⟨rfl, rfl⟩
  rw [if_neg h11] at h
  injection h with he; subst he; exact ⟨rfl, rfl⟩

theorem loop_preserves_fields {ops : List (Str × Str)}
    (hno : ∀ p ∈ ops, p.1 ≠ "-l".toList) :
    ∀ {st o : OptState}, parse_options_loop st ops = .ok o →
      o.ldap_user = st.ldap_user ∧ o.localmaps = st.localmaps := by
  induction ops with
  | nil =>
    intro st o h
    injection h with he
    subst he
    exact ⟨rfl, rfl⟩
  | cons p ops ih =>
    intro st o h
    obtain ⟨op, arg⟩ := p
    rw [parse_options_loop] at h
    cases hap : applyOpt st op arg with
    | error e => rw [hap] at h; exact Except.noConfusion h
    | ok st₁ =>
      rw [hap] at h
      have hstep := applyOpt_preserves (hno (op, arg) (List.mem_cons_self _ _)) hap
      have hrest := ih (fun q hq => hno q (List.mem_cons_of_mem _ hq)) h
      exact ⟨hrest.1.trans hstep.1, hrest.2.trans hstep.2⟩

/-- The "tied" invariant: `localmaps` is the comma-split of `ldap_user`,
which is what a `-l` occurrence establishes. -/
def lTied (st : OptState) : Prop := st.localmaps = splitComma st.ldap_user

theorem applyOpt_tied {st st' : OptState} {op arg : Str} (h : applyOpt st op arg = .ok st')
    (hst : lTied st) : lTied st' := by
  by_cases hop : op = "-l".toList
  · subst hop
    rw [applyOpt_l] at h
    injection h with he
    subst he
    rfl
  · have hstep := applyOpt_preserves hop h
    rw [lTied, hstep.1, hstep.2]
    exact hst

theorem loop_preserves_tied {ops : List (Str × Str)} :
    ∀ {st o : OptState}, lTied st → parse_options_loop st ops = .ok o → lTied o := by
  induction ops with
  | nil =>
    intro st o hst h
    injection h with he
    subst he
    exact hst
  | cons p ops ih =>
    intro st o hst h
    obtain ⟨op, arg⟩ := p
    rw [parse_options_loop] at h
    cases hap : applyOpt st op arg with
    | error e => rw [hap] at h; exact Except.noConfusion h
    | ok st₁ =>
      rw [hap] at h
      exact ih (applyOpt_tied hap hst) h

theorem loop_tied {ops : List (Str × Str)} :
    ∀ {st o : OptState}, ("-l".toList ∈ ops.map Prod.fst) →
      parse_options_loop st ops = .ok o → lTied o := by
  induction ops with
  | nil => intro st o hmem _; simp at hmem
  | cons p ops ih =>
    intro st o hmem h
    obtain ⟨op, arg⟩ := p
    rw [parse_options_loop] at h
    cases hap : applyOpt st op arg with
    | error e => rw [hap] at h; exact Except.noConfusion h
    | ok st₁ =>
      rw [hap] at h
      rcases List.mem_cons.mp hmem with he | hmem
      · have hop : op = "-l".toList := he.symm
        subst hop
        rw [applyOpt_l] at hap
        injection hap with he₁
        subst he₁
        have ht : lTied { st with ldap_user := arg, localmaps := splitComma arg } := rfl
        exact loop_preserves_tied ht h
      · exact ih hmem h

theorem mergeOne_disjoint {pm : UserMap} (hn : (dictKeys pm).Nodup) :
    ∀ {d : UserMap}, (∀ k ∈ dictKeys pm, k ∉ dictKeys d) → mergeOne d pm = d ++ pm := by
  induction pm with
  | nil => intro d _; rw [mergeOne, List.append_nil]
  | cons p rest ih =>
    intro d hdisj
    obtain ⟨k, v⟩ := p
    have hkd : k ∉ dictKeys d := hdisj k (by simp [dictKeys])
    have hnone : dictLookup d k = none := dictLookup_eq_none.mpr hkd
    simp only [dictKeys, List.map_cons, List.nodup_cons] at hn
    have hdisj₂ : ∀ k' ∈ dictKeys rest, k' ∉ dictKeys (d ++ [(k, v)]) := by
      intro k' hk' hc
      rw [dictKeys_append] at hc
      rcases List.mem_append.mp hc with hc | hc
      · exact hdisj k' (List.mem_cons_of_mem _ hk') hc
      · simp [dictKeys] at hc
        subst hc
        exact hn.1 hk'
    rw [mergeOne, hnone, dictSet_of_not_mem hkd, ih hn.2 hdisj₂, List.append_assoc]
    rfl

theorem mergeOne_fixpoint :
    ∀ {pm d : UserMap}, (∀ kv ∈ pm, dictLookup d kv.1 = some kv.2 ∧ kv.2.Nodup) →
      mergeOne d pm = d := by
  intro pm
  induction pm with
  | nil => intro d _; rfl
  | cons p rest ih =>
    intro d h
    obtain ⟨k, v⟩ := p
    obtain ⟨hlk, hnd⟩ := h (k, v) (List.mem_cons_self _ _)
    have hlk₁ : dictLookup d k = some v := hlk
    have hnd₁ : v.Nodup := hnd
    have hdd : _deduplicate_list (v ++ v) = v := by rw [dedup_append_self, dedup_eq_self hnd₁]
    rw [mergeOne, hlk₁]
    show mergeOne (dictSet d k (_deduplicate_list (v ++ v))) rest = d
    rw [hdd, dictSet_self hlk₁]
    exact ih fun kv hkv => h kv (List.mem_cons_of_mem _ hkv)

/-! ## The claims -/

/-- C1: for every raw LDAP map and every authoritative project-name set,
every group name in the map produced by `get_osguser_groups` is a member of
the authoritative set, each identity's surviving groups form a sublist of
its original list (original relative order, no renaming or alteration). -/
theorem spec_c1 (R : UserMap) (A : List Str) (u : Str) (gs : List Str)
    (h : (u, gs) ∈ get_osguser_groups R A) :
    (∀ g ∈ gs, g ∈ A) ∧ ∃ gs₀, (u, gs₀) ∈ R ∧ gs.Sublist gs₀ := by
  rw [get_osguser_groups] at h
  rcases List.mem_map.mp h with ⟨⟨u₀, gs₀⟩, hmem, heq⟩
  injection heq with he1 he2
  subst he1
  subst he2
  constructor
  · intro g hg
    exact of_decide_eq_true (List.mem_filter.mp hg).2
  · exact ⟨gs₀, hmem, List.filter_sublist gs₀⟩

theorem spec_c1_witness :
    ("u".toList, ["p".toList]) ∈
        get_osguser_groups [("u".toList, ["p".toList, "x".toList])] ["p".toList]
    ∧ ((∀ g ∈ ["p".toList], g ∈ ["p".toList])
        ∧ ∃ gs₀, ("u".toList, gs₀) ∈ [("u".toList, ["p".toList, "x".toList])]
            ∧ (["p".toList] : List Str).Sublist gs₀) :=
  ⟨by decide,
    spec_c1 [("u".toList, ["p".toList, "x".toList])] ["p".toList] "u".toList ["p".toList]
      (by decide)⟩

/-- C2: `merge_maps` folds left to right with order-preserving
deduplication per identity: merging `{u: [a,b]}` then `{u: [b,c]}` yields
`{u: [a,b,c]}`, and in general (for maps with dict-unique keys and
duplicate-free group lists) an identity's merged list is the
order-preserving deduplication of the concatenation of its lists in map
order — the first map contributing a group fixes its position, groups first
seen later append in order of first appearance. -/
theorem spec_c2 (maps : List UserMap) (u : Str)
    (hk : ∀ pm ∈ maps, (dictKeys pm).Nodup)
    (hv : ∀ pm ∈ maps, ∀ kv ∈ pm, kv.2.Nodup) :
    merge_maps [[("u".toList, ["a".toList, "b".toList])], [("u".toList, ["b".toList, "c".toList])]]
      = [("u".toList, ["a".toList, "b".toList, "c".toList])]
    ∧ (maps.filterMap (fun pm => dictLookup pm u) = [] → dictLookup (merge_maps maps) u = none)
    ∧ ∀ w ls, maps.filterMap (fun pm => dictLookup pm u) = w :: ls →
        dictLookup (merge_maps maps) u = some (_deduplicate_list (w :: ls).flatten) := by
  have hbase : dictLookup (merge_maps maps) u
      = (maps.map fun pm => dictLookup pm u).foldl combineVal none := by
    rw [merge_maps, merge_maps_go_lookup hk, List.foldl_map]
    rfl
  have hro : (maps.map fun pm => dictLookup pm u).reduceOption
      = maps.filterMap fun pm => dictLookup pm u := by
    rw [List.reduceOption, List.filterMap_map]
    rfl
  refine ⟨rfl, ?_, ?_⟩
  · intro hempty
    rw [hbase, foldl_combineVal_none, hro, hempty]
  · intro w ls hcons
    have hw : w.Nodup := by
      have hmem : w ∈ maps.filterMap fun pm => dictLookup pm u := by
        rw [hcons]; exact List.mem_cons_self _ _
      rcases List.mem_filterMap.mp hmem with ⟨pm, hpm, hlook⟩
      exact hv pm hpm (u, w) (dictLookup_some_mem hlook)
    rw [hbase, foldl_combineVal_none, hro, hcons]
    show some (accDedup w ls) = _
    rw [accDedup_eq_dedup_join hw, List.flatten_cons]

theorem spec_c2_witness :
    (∀ pm ∈ [[("u".toList, ["a".toList, "b".toList])], [("u".toList, ["b".toList, "c".toList])]],
      (dictKeys pm).Nodup)
    ∧ dictLookup
        (merge_maps [[("u".toList, ["a".toList, "b".toList])],
          [("u".toList, ["b".toList, "c".toList])]]) "u".toList
      = some (_deduplicate_list
          ((["a".toList, "b".toList] :: [["b".toList, "c".toList]]).flatten)) :=
  ⟨by decide,
    (spec_c2 [[("u".toList, ["a".toList, "b".toList])], [("u".toList, ["b".toList, "c".toList])]]
        "u".toList (by decide) (by decide)).2.2
      ["a".toList, "b".toList] [["b".toList, "c".toList]] (by decide)⟩

/-- C8: merging a membership map (dict-unique keys, duplicate-free group
lists) with itself yields the same map: no group is duplicated and no
first-seen group is reordered. -/
theorem spec_c8 (m : UserMap) (hk : (dictKeys m).Nodup) (hv : ∀ kv ∈ m, kv.2.Nodup) :
    merge_maps [m, m] = m := by
  have hm : mergeOne [] m = m :=
    (mergeOne_disjoint hk fun k _ hc => by simp [dictKeys] at hc).trans (List.nil_append m)
  show mergeOne (mergeOne [] m) m = m
  rw [hm]
  refine mergeOne_fixpoint ?_
  rintro ⟨a, b⟩ hkv
  exact ⟨dictLookup_of_mem hk hkv, hv (a, b) hkv⟩

theorem spec_c8_witness :
    (dictKeys [("u".toList, ["a".toList, "b".toList])]).Nodup
    ∧ merge_maps [[("u".toList, ["a".toList, "b".toList])],
          [("u".toList, ["a".toList, "b".toList])]]
      = [("u".toList, ["a".toList, "b".toList])] :=
  ⟨by decide, spec_c8 [("u".toList, ["a".toList, "b".toList])] (by decide) (by decide)⟩

/-- C3 (spec-modelled, the gate is absent from the `src/` variant): every
merged map with fewer identities than the configured minimum aborts the run
with no output written, a merged map of exactly `min_users` identities is
serialized and emitted, and the default threshold is 100. -/
theorem spec_c3 (m m' : UserMap) (min_users : Nat)
    (h : m.length = min_users) (h' : m'.length < min_users) :
    apply_sanity_gate m min_users = some (print_usermap_to_file m)
    ∧ apply_sanity_gate m' min_users = none
    ∧ MIN_USERS_DEFAULT = 100 := by
  refine ⟨?_, ?_, rfl⟩
  · rw [apply_sanity_gate, if_neg (by rw [h]; exact lt_irrefl min_users)]
  · rw [apply_sanity_gate, if_pos h']

theorem spec_c3_witness :
    ([("u".toList, ([] : List Str))] : UserMap).length = 1
    ∧ (([] : UserMap).length < 1)
    ∧ apply_sanity_gate [("u".toList, ([] : List Str))] 1
        = some (print_usermap_to_file [("u".toList, ([] : List Str))])
    ∧ apply_sanity_gate ([] : UserMap) 1 = none :=
  ⟨rfl, by decide, (spec_c3 [("u".toList, [])] [] 1 rfl (by decide)).1,
    (spec_c3 [("u".toList, [])] [] 1 rfl (by decide)).2.1⟩

/-- C4, counterexample to the claim as stated: a cache file whose first
line is not a float makes `get_co_api_data` raise `ValueError` (uncaught —
the `except` clause catches only `OSError`), so a corrupt cache is *not*
handled like a cache miss and the error propagates to the caller. -/
theorem spec_c4_counterexample :
    get_co_api_data (some ["corrupt".toList]) ⟨0, 0⟩ [] = .error .valueError := rfl

/-- C4, amended: only a missing/unreadable cache file (`OSError` on `open`)
and a stale-but-parseable timestamp are handled like a cache miss — both
fall through to a live registry refresh that overwrites the cache with a
fresh timestamp and entries; a cache whose first line does not parse as a
float (an empty file, or non-decimal content) instead raises an uncaught
exception. -/
theorem spec_c4 (l0 : Str) (rest : List Str) (now t : DecF) (api : List (Int × Str))
    (hts : pyFloat l0 = some t)
    (hstale : DecF.le (now.sub CACHE_LIFETIME_SECONDS) t = false) :
    get_co_api_data none now api = .ok (api, some (now, api))
    ∧ get_co_api_data (some (l0 :: rest)) now api = .ok (api, some (now, api)) := by
  refine ⟨rfl, ?_⟩
  show (match pyFloat l0 with
    | none => .error .valueError
    | some ts =>
      if DecF.le (now.sub CACHE_LIFETIME_SECONDS) ts then
        match parseCacheEntries rest with
        | .ok d => .ok (d, none)
        | .error e => .error e
      else .ok (api, some (now, api))) = Except.ok (api, some (now, api))
  rw [hts]
  show (if DecF.le (now.sub CACHE_LIFETIME_SECONDS) t then _ else _) = _
  rw [if_neg (by rw [hstale]; exact Bool.false_ne_true)]

theorem spec_c4_witness :
    pyFloat "0".toList = some ⟨0, 0⟩
    ∧ DecF.le ((⟨20000, 0⟩ : DecF).sub CACHE_LIFETIME_SECONDS) ⟨0, 0⟩ = false
    ∧ get_co_api_data (some ["0".toList]) ⟨20000, 0⟩ [(1, "p".toList)]
        = .ok ([(1, "p".toList)], some (⟨20000, 0⟩, [(1, "p".toList)])) :=
  ⟨by decide, by decide,
    (spec_c4 "0".toList [] ⟨20000, 0⟩ ⟨0, 0⟩ [(1, "p".toList)] (by decide) (by decide)).2⟩

/-- C5: `parse_localmap` parses the mapping-file line format — the line
`* alice grp1, grp2,grp3` yields `alice -> [grp1, grp2, grp3]`, a
wrong-marker line `bad alice grp1` and a two-field line `* alice` yield
nothing — and when a `*`-marked three-field line names an identity already
in the accumulated map, its groups are merged with order-preserving
deduplication. -/
theorem spec_c5 (m : UserMap) (u : Str) (cur : List Str) (f line : Str) (rest : List Str)
    (hsplit : splitMaxsplit2 line = ["*".toList, u, f])
    (hl : dictLookup m u = some cur) :
    parse_localmap ["* alice grp1, grp2,grp3".toList, "bad alice grp1".toList, "* alice".toList]
      = .ok [("alice".toList, ["grp1".toList, "grp2".toList, "grp3".toList])]
    ∧ parse_localmap ["* alice grp1,grp2".toList, "* alice grp2,grp3".toList]
      = .ok [("alice".toList, ["grp1".toList, "grp2".toList, "grp3".toList])]
    ∧ parse_localmap_go m (line :: rest)
      = parse_localmap_go (dictSet m u (_deduplicate_list (cur ++ reSplitSpaceComma f))) rest := by
  refine ⟨rfl, rfl, ?_⟩
  rw [parse_localmap_go, hsplit]
  show (if "*".toList = "*".toList then
          match dictLookup m u with
          | some c => parse_localmap_go (dictSet m u (_deduplicate_list (c ++ reSplitSpaceComma f))) rest
          | none => parse_localmap_go (dictSet m u (reSplitSpaceComma f)) rest
        else parse_localmap_go m rest) = _
  rw [if_pos rfl, hl]

theorem spec_c5_witness :
    splitMaxsplit2 "* alice g2 g3".toList = ["*".toList, "alice".toList, "g2 g3".toList]
    ∧ dictLookup [("alice".toList, ["g1".toList])] "alice".toList = some ["g1".toList]
    ∧ parse_localmap_go [("alice".toList, ["g1".toList])] ["* alice g2 g3".toList]
      = parse_localmap_go
          (dictSet [("alice".toList, ["g1".toList])] "alice".toList
            (_deduplicate_list (["g1".toList] ++ reSplitSpaceComma "g2 g3".toList))) [] :=
  ⟨by decide, by decide,
    (spec_c5 [("alice".toList, ["g1".toList])] "alice".toList ["g1".toList] "g2 g3".toList
        "* alice g2 g3".toList [] (by decide) (by decide)).2.2⟩

/-- C6: the claim says parsing can never fail on a malformed line, empty
lines included; in fact `parse_localmap` indexes `split_line[0]` before
checking the field count, so an empty (or all-whitespace) line — whose
`str.split` is the empty list — raises an uncaught `IndexError`. -/
theorem spec_c6 : parse_localmap ["* alice grp1".toList, "".toList] = .error .indexError := rfl

/-- C7: serialization is deterministic — two maps with the same bindings
(in any arrangement) serialize to identical line lists; the output has one
line per identity, each line is `* <identity> <group1,group2,...>` with the
groups trimmed and joined by single commas in preserved order, and the
emitted sequence is sorted ascending in `sorted`'s tuple order (identity
first). -/
theorem spec_c7 (m m₁ m₂ : UserMap) (u : Str) (gs : List Str)
    (hp : m₁.Perm m₂) (hm : (u, gs) ∈ m) :
    print_usermap_to_file m₁ = print_usermap_to_file m₂
    ∧ (print_usermap_to_file m).length = m.length
    ∧ formatLine (u, gs) ∈ print_usermap_to_file m
    ∧ formatLine (u, gs) = "* ".toList ++ u ++ ' ' :: joinComma (gs.map pyStrip)
    ∧ List.Pairwise (fun a b => pairLe a b = true) (m.mergeSort pairLe) := by
  refine ⟨congrArg (List.map formatLine) (mergeSort_pairLe_eq hp), ?_, ?_, rfl,
    List.sorted_mergeSort (fun a b c => pairLe_trans a b c) pairLe_total m⟩
  · rw [print_usermap_to_file, List.length_map, (List.mergeSort_perm m pairLe).length_eq]
  · rw [print_usermap_to_file]
    exact List.mem_map_of_mem _ ((List.mergeSort_perm m pairLe).mem_iff.mpr hm)

theorem spec_c7_witness :
    ([("b".toList, ["y".toList]), ("a".toList, ["x".toList])] : UserMap).Perm
        [("a".toList, ["x".toList]), ("b".toList, ["y".toList])]
    ∧ print_usermap_to_file [("b".toList, ["y".toList]), ("a".toList, ["x".toList])]
      = print_usermap_to_file [("a".toList, ["x".toList]), ("b".toList, ["y".toList])] :=
  ⟨by decide,
    (spec_c7 [("b".toList, ["y".toList])] [("b".toList, ["y".toList]), ("a".toList, ["x".toList])]
        [("a".toList, ["x".toList]), ("b".toList, ["y".toList])] "b".toList ["y".toList]
        (by decide) (by decide)).1⟩

theorem parse_options_loop_cons {st : OptState} {op arg : Str} {rest : List (Str × Str)} :
    parse_options_loop st ((op, arg) :: rest)
      = match applyOpt st op arg with
        | .ok st₁ => parse_options_loop st₁ rest
        | .error e => .error e := rfl

/-- C9: in the flag loop of `parse_options`, a `-l` occurrence assigns both
`options.ldap_user` (the argument itself) and `options.localmaps` (the
argument split on commas) in the same iteration; with several `-l`
occurrences the last one determines both fields; and whenever `-l` occurs
at all, the two fields cannot end up independent — the final `localmaps` is
always the comma-split of the final `ldap_user`. -/
theorem spec_c9 (st : OptState) (a : Str) (ops₁ ops₂ ops : List (Str × Str)) (o o' : OptState) :
    applyOpt st "-l".toList a = .ok { st with ldap_user := a, localmaps := splitComma a }
    ∧ (parse_options_loop st (ops₁ ++ ("-l".toList, a) :: ops₂) = .ok o →
        (∀ p ∈ ops₂, p.1 ≠ "-l".toList) → o.ldap_user = a ∧ o.localmaps = splitComma a)
    ∧ (parse_options ops = .ok o' → "-l".toList ∈ ops.map Prod.fst →
        o'.localmaps = splitComma o'.ldap_user) := by
  refine ⟨applyOpt_l, ?_, ?_⟩
  · intro hok hno
    rw [parse_options_loop_append] at hok
    cases h1 : parse_options_loop st ops₁ with
    | error e => rw [h1] at hok; exact Except.noConfusion hok
    | ok st₁ =>
      rw [h1] at hok
      have hok₂ : parse_options_loop st₁ (("-l".toList, a) :: ops₂) = .ok o := hok
      rw [parse_options_loop_cons, applyOpt_l] at hok₂
      have hok₃ : parse_options_loop
          { st₁ with ldap_user := a, localmaps := splitComma a } ops₂ = .ok o := hok₂
      have hfields := loop_preserves_fields hno hok₃
      exact ⟨hfields.1, hfields.2⟩
  · intro hok hmem
    exact loop_tied hmem hok

/-- The option state produced by the flag list of `spec_c9_witness`. -/
def c9Expected : OptState :=
  { initOptState with
      outfile := some "out".toList
      ldap_user := "x,y".toList
      localmaps := ["x".toList, "y".toList]
      filtergrp := some "grp".toList }

theorem spec_c9_witness :
    parse_options
        [("-o".toList, "out".toList), ("-l".toList, "x,y".toList), ("-g".toList, "grp".toList)]
      = .ok c9Expected
    ∧ c9Expected.ldap_user = "x,y".toList
    ∧ c9Expected.localmaps = splitComma c9Expected.ldap_user := by
  have h := spec_c9 initOptState "x,y".toList [("-o".toList, "out".toList)]
    [("-g".toList, "grp".toList)]
    [("-o".toList, "out".toList), ("-l".toList, "x,y".toList), ("-g".toList, "grp".toList)]
    c9Expected c9Expected
  exact ⟨rfl, (h.2.1 rfl (by decide)).1, h.2.2 rfl (by decide)⟩

/-- C10: the project filter preserves the identity domain — the key list of
the map returned by `get_osguser_groups` equals the key list of the raw
map; an identity whose groups all fail the filter is kept with an empty
list; and such an identity is serialized as the line `* <identity> ` with
an empty group field. -/
theorem spec_c10 (R m : UserMap) (A : List Str) (u : Str) (gs : List Str)
    (h₁ : (u, gs) ∈ R) (h₂ : ∀ g ∈ gs, g ∉ A) (h₃ : (u, ([] : List Str)) ∈ m) :
    (get_osguser_groups R A).map Prod.fst = R.map Prod.fst
    ∧ (u, ([] : List Str)) ∈ get_osguser_groups R A
    ∧ ("* ".toList ++ u ++ [' ']) ∈ print_usermap_to_file m := by
  refine ⟨?_, ?_, ?_⟩
  · rw [get_osguser_groups, List.map_map]
    have hc : (Prod.fst ∘ fun p : Str × List Str =>
        (p.1, p.2.filter fun g => decide (g ∈ A))) = Prod.fst := funext fun p => rfl
    rw [hc]
  · rw [get_osguser_groups]
    have hf : gs.filter (fun g => decide (g ∈ A)) = [] := by
      rw [List.filter_eq_nil_iff]
      intro g hg
      simpa using h₂ g hg
    have he : (u, ([] : List Str))
        = (fun p : Str × List Str => (p.1, p.2.filter fun g => decide (g ∈ A))) (u, gs) := by
      show (u, ([] : List Str)) = (u, gs.filter fun g => decide (g ∈ A))
      rw [hf]
    rw [he]
    exact List.mem_map_of_mem _ h₁
  · rw [print_usermap_to_file]
    have he : ("* ".toList ++ u ++ [' ']) = formatLine (u, ([] : List Str)) := rfl
    rw [he]
    exact List.mem_map_of_mem _ ((List.mergeSort_perm m pairLe).mem_iff.mpr h₃)

theorem spec_c10_witness :
    ("u".toList, ["x".toList]) ∈ ([("u".toList, ["x".toList])] : UserMap)
    ∧ (get_osguser_groups [("u".toList, ["x".toList])] []).map Prod.fst
        = ([("u".toList, ["x".toList])] : UserMap).map Prod.fst
    ∧ ("u".toList, ([] : List Str)) ∈ get_osguser_groups [("u".toList, ["x".toList])] []
    ∧ ("* ".toList ++ "u".toList ++ [' '])
        ∈ print_usermap_to_file [("u".toList, ([] : List Str))] := by
  have h := spec_c10 [("u".toList, ["x".toList])] [("u".toList, ([] : List Str))] []
    "u".toList ["x".toList] (by decide) (by decide) (by decide)
  exact ⟨by decide, h.1, h.2.1, h.2.2⟩

end OsgMap
